import Mathlib

/-!
Verification of the Bloom-filter core of the repository (`src/BF.py`).

The embedding follows the Python source:

* `hash_factory m` returns the closure `hash_function(key, seed) =
  murmurhash3_32(key, seed=seed) % m` (BF.py lines 7-30).  sklearn's
  `murmurhash3_32` applies MurmurHash3 x86_32 to the key's bytes (the four
  little-endian bytes of a 32-bit integer, or the UTF-8 bytes of a string)
  and returns the result as a *signed* 32-bit integer; Python's `%` with a
  positive modulus then yields a value in `[0, m)`.  All of this is modelled
  computably below (`murmur3_x86_32`, `toSigned32`, Python `%` = `Int.emod`).
* `BloomFilter.__init__` (lines 34-62) is modelled by `mkBloomFilter` over
  the real numbers (the Python source computes with floats); the branches
  where Python's `math.log`, `math.log2` or `1 << e` raise a `ValueError`
  return `none`.
* `insert` (lines 64-75) and `test` (lines 77-90) are modelled by `insert`
  and `test` on an explicit record state.
-/

namespace BF

/-! ### MurmurHash3 x86_32, as used by sklearn's murmurhash3_32 -/

/-- Reduce a natural number to 32 bits (all murmur arithmetic is mod 2^32). -/
def u32 (x : ℕ) : ℕ := x % 4294967296

/-- Rotate a 32-bit value left by `r` bits (`0 < r < 32`): the shifted-out
high bits reappear at the bottom; on 32-bit values the two parts are disjoint
so bitwise-or is addition. -/
def rotl32 (x r : ℕ) : ℕ := u32 (x * 2 ^ r) + x / 2 ^ (32 - r)

/-- One 4-byte block step of MurmurHash3 x86_32: mix the little-endian word
`kb` into the running state `h`. -/
def murmurStep (h kb : ℕ) : ℕ :=
  let k1 := u32 (kb * 0xcc9e2d51)
  let k2 := u32 (rotl32 k1 15 * 0x1b873593)
  let h2 := rotl32 (h ^^^ k2) 13
  u32 (h2 * 5 + 0xe6546b64)

/-- Little-endian word value of up to four bytes. -/
def leWord : List ℕ → ℕ
  | [] => 0
  | b :: bs => b + 256 * leWord bs

/-- Tail step of MurmurHash3 x86_32: the final 1-3 bytes (if any) are mixed
in without the rotate-13/multiply-add of a full block. -/
def murmurTail (h : ℕ) (tl : List ℕ) : ℕ :=
  match tl with
  | [] => h
  | bs => h ^^^ u32 (rotl32 (u32 (leWord bs * 0xcc9e2d51)) 15 * 0x1b873593)

/-- Process the byte stream four bytes at a time, then the tail. -/
def murmurBlocks (h : ℕ) : List ℕ → ℕ
  | b0 :: b1 :: b2 :: b3 :: rest =>
      murmurBlocks (murmurStep h (leWord [b0, b1, b2, b3])) rest
  | tl => murmurTail h tl

/-- Final avalanche of MurmurHash3 x86_32. -/
def fmix32 (x : ℕ) : ℕ :=
  let h1 := x ^^^ x / 2 ^ 16
  let h2 := u32 (h1 * 0x85ebca6b)
  let h3 := h2 ^^^ h2 / 2 ^ 13
  let h4 := u32 (h3 * 0xc2b2ae35)
  h4 ^^^ h4 / 2 ^ 16

/-- MurmurHash3 x86_32 of a byte stream with the given seed, as an unsigned
32-bit value. -/
def murmur3_x86_32 (bytes : List ℕ) (seed : ℕ) : ℕ :=
  fmix32 (murmurBlocks (u32 seed) bytes ^^^ u32 bytes.length)

/-- Keys supported by the filter: Python integers (hashed through their
32-bit two's-complement little-endian bytes, as sklearn does for `int`
keys) and strings (carried here as their UTF-8 byte sequence). -/
inductive Key where
  | intKey (i : ℤ)
  | strKey (bytes : List ℕ)
deriving DecidableEq

/-- Byte sequence that sklearn's murmurhash3_32 hashes for a key it
accepts: for an integer key in the signed 32-bit range, the four
little-endian bytes of its two's-complement representation (which for those
keys is exactly `i mod 2^32`); for a string, its UTF-8 bytes.  Whether a
key is accepted at all is a separate check (`hashable` below): sklearn
raises OverflowError for integers outside the 32-bit range before any byte
is hashed. -/
def keyBytes : Key → List ℕ
  | Key.intKey i =>
      let u := (i.emod (2 ^ 32)).toNat
      [u % 256, u / 256 % 256, u / 65536 % 256, u / 16777216 % 256]
  | Key.strKey bs => bs

/-- Reinterpret an unsigned 32-bit value as a signed one, as sklearn's
murmurhash3_32 returns a signed int32 by default. -/
def toSigned32 (x : ℕ) : ℤ := if x < 2 ^ 31 then (x : ℤ) else (x : ℤ) - 2 ^ 32

/-- sklearn's `murmurhash3_32(key, seed=seed)`: signed 32-bit murmur of the
key's bytes. -/
def murmurhash3_32 (key : Key) (seed : ℕ) : ℤ :=
  toSigned32 (murmur3_x86_32 (keyBytes key) seed)

/-- `hash_factory(m)` from BF.py: the returned closure computes
`murmurhash3_32(key, seed=seed) % m`.  Python's `%` with a positive modulus
is `Int.emod`, whose result is non-negative, so the index is returned as a
natural number. -/
def hash_factory (m : ℕ) : Key → ℕ → ℕ :=
  fun key seed => ((murmurhash3_32 key seed).emod (m : ℤ)).toNat

/-- Whether sklearn's murmurhash3_32 accepts the key: every string is
accepted, but an integer key is cast to a C int (signed 32-bit), so
integers outside `[-2^31, 2^31)` raise OverflowError. -/
def hashable : Key → Bool
  | Key.intKey i => decide (-(2 ^ 31) ≤ i ∧ i < 2 ^ 31)
  | Key.strKey _ => true

/-- sklearn's `murmurhash3_32(key, seed=seed)` with its failure path made
explicit: `none` models the OverflowError raised for integer keys outside
the signed 32-bit range; accepted keys are hashed as in `murmurhash3_32`. -/
def murmurhash3_32_checked (key : Key) (seed : ℕ) : Option ℤ :=
  if hashable key then some (murmurhash3_32 key seed) else none

/-- The `hash_factory(m)` closure with the hash's failure path kept:
`murmurhash3_32(key, seed=seed) % m`, or `none` when the hash call raises. -/
def hash_factory_checked (m : ℕ) (key : Key) (seed : ℕ) : Option ℕ :=
  (murmurhash3_32_checked key seed).map fun h => (h.emod (m : ℤ)).toNat

/-! ### The BloomFilter state -/

/-- State of a `BloomFilter` object: the fields set by `__init__` in BF.py.
`N` and `k` are `ℤ` because Python never forces them non-negative; `table`
is the bitarray as a list of booleans; `hash_functions` is the list
`[hash_factory(R) for _ in range(k)]`. -/
structure BloomFilter where
  R : ℕ
  N : ℤ
  fp_rate : ℝ
  k : ℤ
  hash_functions : List (Key → ℕ → ℕ)
  table : List Bool

/-- Theoretical optimal bit-array size `-n * ln(fp_rate) / (ln 2)^2`
(BF.py line 46, computed in real arithmetic). -/
noncomputable def R_theoretical (n : ℤ) (p : ℝ) : ℝ :=
  -(n : ℝ) * Real.log p / (Real.log 2) ^ 2

/-- The shift count `math.ceil(math.log2(R_theoretical))` of BF.py line 46. -/
noncomputable def exponent (n : ℤ) (p : ℝ) : ℤ :=
  ⌈Real.logb 2 (R_theoretical n p)⌉

/-- `self.R = 1 << exponent` of BF.py line 46 (for a non-negative shift). -/
noncomputable def sizeR (n : ℤ) (p : ℝ) : ℕ := 2 ^ (exponent n p).toNat

/-- `self.k = math.ceil((self.R / self.N) * math.log(2))` of BF.py line 55. -/
noncomputable def hashCount (n : ℤ) (p : ℝ) : ℤ :=
  ⌈((sizeR n p : ℝ) / (n : ℝ)) * Real.log 2⌉

open Classical in
/-- `BloomFilter.__init__(n, fp_rate)` (BF.py lines 34-62), with Python's
float arithmetic modelled over ℝ.  The three `none` branches are the three
ways the Python constructor raises a `ValueError`: `math.log(fp_rate)` on a
non-positive argument, `math.log2` on a non-positive argument, and
`1 << e` with a negative shift count.  Otherwise
`R = 2^ceil(log2(R_theoretical))`, `k = ceil((R / n) * log 2)`, the table is
`R` zero bits and the hash family is `k` copies of `hash_factory(R)`. -/
noncomputable def mkBloomFilter (n : ℤ) (p : ℝ) : Option BloomFilter :=
  if p ≤ 0 then none
  else if R_theoretical n p ≤ 0 then none
  else if exponent n p < 0 then none
  else
    some { R := sizeR n p, N := n, fp_rate := p, k := hashCount n p,
           hash_functions := List.replicate (hashCount n p).toNat (hash_factory (sizeR n p)),
           table := List.replicate (sizeR n p) false }

/-- `BloomFilter.insert(key)` (BF.py lines 64-75): for `i in range(k)` set
`table[hash_functions[i](key, i)] = 1`.  List indexing is modelled with a
default that never matters for well-formed filters (every entry of
`hash_functions` is `hash_factory R`). -/
def insert (f : BloomFilter) (key : Key) : BloomFilter :=
  { f with
    table := (List.range f.k.toNat).foldl
      (fun t i => t.set (f.hash_functions.getD i (hash_factory f.R) key i) true)
      f.table }

/-- `BloomFilter.test(key)` (BF.py lines 77-90): return false as soon as one
probed bit is 0, true if all `k` probed bits are 1.  `List.all`
short-circuits exactly like the Python early `return False`. -/
def test (f : BloomFilter) (key : Key) : Bool :=
  (List.range f.k.toNat).all fun i =>
    f.table.getD (f.hash_functions.getD i (hash_factory f.R) key i) false

/-- A sequence of `insert` calls. -/
def insertAll (f : BloomFilter) (keys : List Key) : BloomFilter :=
  keys.foldl insert f

/-- Well-formedness: exactly the state any constructed filter is in (and
`insert` preserves): the table has length `R`, `R ≥ 1`, and the hash family
is `k.toNat` copies of `hash_factory R`. -/
def WF (f : BloomFilter) : Prop :=
  f.table.length = f.R ∧ 1 ≤ f.R ∧
    f.hash_functions = List.replicate f.k.toNat (hash_factory f.R)

/-! ### Bit-setting lemmas: the loop body of `insert` -/

/-- Set each index of `L` to `true`, left to right (the `insert` loop). -/
def setBits (t : List Bool) (L : List ℕ) : List Bool :=
  L.foldl (fun s i => s.set i true) t

theorem setBits_nil (t : List Bool) : setBits t [] = t := rfl

theorem setBits_cons (t : List Bool) (i : ℕ) (L : List ℕ) :
    setBits t (i :: L) = setBits (t.set i true) L := rfl

theorem setBits_length (t : List Bool) (L : List ℕ) :
    (setBits t L).length = t.length := by
  induction L generalizing t with
  | nil => rfl
  | cons i L ih => rw [setBits_cons, ih, List.length_set]

theorem getElem?_setBits (t : List Bool) (L : List ℕ) (n : ℕ) :
    (setBits t L)[n]? = if n ∈ L ∧ n < t.length then some true else t[n]? := by
  induction L generalizing t with
  | nil => simp [setBits_nil]
  | cons i L ih =>
      rw [setBits_cons, ih, List.length_set, List.getElem?_set]
      by_cases hlen : n < t.length
      · by_cases hiL : n ∈ L
        · simp [hiL, hlen, List.mem_cons]
        · by_cases hin : i = n
          · subst hin
            simp [hiL, hlen, List.mem_cons]
          · have hni : n ≠ i := fun h => hin h.symm
            simp [hiL, hlen, List.mem_cons, hin, hni]
      · have hnone : t[n]? = none := List.getElem?_eq_none (Nat.le_of_not_lt hlen)
        by_cases hin : i = n
        · subst hin
          simp [hlen, hnone]
        · simp [hlen, hnone, hin]

theorem setBits_mem (t : List Bool) (L : List ℕ) (n : ℕ)
    (hn : n ∈ L) (hlen : n < t.length) : (setBits t L)[n]? = some true := by
  rw [getElem?_setBits]
  simp [hn, hlen]

theorem setBits_mono (t : List Bool) (L : List ℕ) (n : ℕ)
    (h : t[n]? = some true) : (setBits t L)[n]? = some true := by
  rw [getElem?_setBits]
  split
  · rfl
  · exact h

theorem count_le_set_true (t : List Bool) (i : ℕ) :
    t.count true ≤ (t.set i true).count true := by
  induction t generalizing i with
  | nil => simp
  | cons b t ih =>
      cases i with
      | zero => cases b <;> simp [List.count_cons]
      | succ j =>
          have := ih j
          cases b <;> simp [List.count_cons] <;> omega

theorem count_le_setBits (t : List Bool) (L : List ℕ) :
    t.count true ≤ (setBits t L).count true := by
  induction L generalizing t with
  | nil => exact Nat.le_refl _
  | cons i L ih => exact Nat.le_trans (count_le_set_true t i) (ih _)

/-! ### Basic facts about `insert`, `test` and `insertAll` -/

/-- The probe indices `hash_functions[i](key, i)` for `i in range(k)`. -/
def probes (f : BloomFilter) (key : Key) : List ℕ :=
  (List.range f.k.toNat).map fun i => f.hash_functions.getD i (hash_factory f.R) key i

theorem insert_table (f : BloomFilter) (key : Key) :
    (insert f key).table = setBits f.table (probes f key) := by
  simp [insert, probes, setBits, List.foldl_map]

theorem insert_table_length (f : BloomFilter) (key : Key) :
    (insert f key).table.length = f.table.length := by
  rw [insert_table, setBits_length]

theorem insertAll_cons (f : BloomFilter) (a : Key) (ks : List Key) :
    insertAll f (a :: ks) = insertAll (insert f a) ks := rfl

theorem probes_insert (f : BloomFilter) (key K : Key) :
    probes (insert f key) K = probes f K := rfl

theorem probes_insertAll (ks : List Key) (f : BloomFilter) (K : Key) :
    probes (insertAll f ks) K = probes f K := by
  induction ks generalizing f with
  | nil => rfl
  | cons a ks ih => rw [insertAll_cons, ih, probes_insert]

theorem table_mono_insert (f : BloomFilter) (key : Key) (n : ℕ)
    (h : f.table[n]? = some true) : (insert f key).table[n]? = some true := by
  rw [insert_table]
  exact setBits_mono _ _ _ h

theorem table_mono_insertAll (ks : List Key) (f : BloomFilter) (n : ℕ)
    (h : f.table[n]? = some true) : (insertAll f ks).table[n]? = some true := by
  induction ks generalizing f with
  | nil => exact h
  | cons a ks ih => rw [insertAll_cons]; exact ih _ (table_mono_insert f a n h)

theorem count_le_insert (f : BloomFilter) (key : Key) :
    f.table.count true ≤ (insert f key).table.count true := by
  rw [insert_table]
  exact count_le_setBits _ _

theorem count_le_insertAll (ks : List Key) (f : BloomFilter) :
    f.table.count true ≤ (insertAll f ks).table.count true := by
  induction ks generalizing f with
  | nil => exact Nat.le_refl _
  | cons a ks ih =>
      rw [insertAll_cons]
      exact Nat.le_trans (count_le_insert f a) (ih _)

theorem getD_eq_some_true (t : List Bool) (n : ℕ)
    (h : t.getD n false = true) : t[n]? = some true := by
  rw [List.getD_eq_getElem?_getD] at h
  cases hx : t[n]? with
  | none => rw [hx] at h; simp at h
  | some b => rw [hx] at h; simpa using h

theorem getD_of_getElem? (t : List Bool) (n : ℕ)
    (h : t[n]? = some true) : t.getD n false = true := by
  rw [List.getD_eq_getElem?_getD, h]
  rfl

theorem hash_factory_lt (m : ℕ) (hm : 1 ≤ m) (key : Key) (seed : ℕ) :
    hash_factory m key seed < m := by
  have hm0 : m ≠ 0 := by omega
  have h2 : (murmurhash3_32 key seed).emod (m : ℤ) < (m : ℤ) :=
    Int.emod_lt_of_pos _ (by exact_mod_cast hm)
  exact (Int.toNat_lt' hm0).mpr h2

theorem WF_insert (f : BloomFilter) (key : Key) (h : WF f) : WF (insert f key) := by
  obtain ⟨h1, h2, h3⟩ := h
  exact ⟨by rw [insert_table_length]; exact h1, h2, h3⟩

theorem WF_insertAll (ks : List Key) (f : BloomFilter) (h : WF f) :
    WF (insertAll f ks) := by
  induction ks generalizing f with
  | nil => exact h
  | cons a ks ih => exact ih _ (WF_insert f a h)

theorem hash_functions_getD (f : BloomFilter) (h : WF f) (i : ℕ) :
    f.hash_functions.getD i (hash_factory f.R) = hash_factory f.R := by
  rw [h.2.2, List.getD_eq_getElem?_getD, List.getElem?_replicate]
  split <;> rfl

theorem filter_ext (f g : BloomFilter) (hR : f.R = g.R) (hN : f.N = g.N)
    (hp : f.fp_rate = g.fp_rate) (hk : f.k = g.k)
    (hh : f.hash_functions = g.hash_functions) (ht : f.table = g.table) :
    f = g := by
  cases f; cases g; simp_all

/-! ### Facts about the constructor -/

theorem mk_inv (n : ℤ) (p : ℝ) (f : BloomFilter)
    (h : mkBloomFilter n p = some f) :
    0 < p ∧ 0 < R_theoretical n p ∧ 0 ≤ exponent n p ∧
      f.R = sizeR n p ∧ f.N = n ∧ f.fp_rate = p ∧ f.k = hashCount n p ∧
      f.hash_functions = List.replicate f.k.toNat (hash_factory f.R) ∧
      f.table = List.replicate f.R false := by
  unfold mkBloomFilter at h
  split_ifs at h with h1 h2 h3
  obtain rfl := Option.some.inj h
  exact ⟨not_le.mp h1, not_le.mp h2, not_lt.mp h3, rfl, rfl, rfl, rfl, rfl, rfl⟩

theorem mk_eq_none_iff (n : ℤ) (p : ℝ) :
    mkBloomFilter n p = none ↔ p ≤ 0 ∨ R_theoretical n p ≤ 1 / 2 := by
  have h2pow : (2 : ℝ) ^ (((-1 : ℤ) : ℝ)) = 1 / 2 := by
    rw [Real.rpow_intCast]
    norm_num
  unfold mkBloomFilter
  split_ifs with h1 h2 h3
  · simp [h1]
  · have : R_theoretical n p ≤ 1 / 2 := le_trans h2 (by norm_num)
    exact iff_of_true rfl (Or.inr this)
  · have hx : 0 < R_theoretical n p := not_le.mp h2
    have he : exponent n p ≤ -1 := by omega
    have hlogb : Real.logb 2 (R_theoretical n p) ≤ ((-1 : ℤ) : ℝ) :=
      Int.ceil_le.mp he
    have : R_theoretical n p ≤ 1 / 2 := by
      rw [Real.logb_le_iff_le_rpow one_lt_two hx, h2pow] at hlogb
      exact hlogb
    exact iff_of_true rfl (Or.inr this)
  · have hx : 0 < R_theoretical n p := not_le.mp h2
    simp only [reduceCtorEq, false_iff]
    push_neg
    refine ⟨not_le.mp h1, ?_⟩
    by_contra hle
    push_neg at hle
    have hlogb : Real.logb 2 (R_theoretical n p) ≤ ((-1 : ℤ) : ℝ) := by
      rw [Real.logb_le_iff_le_rpow one_lt_two hx, h2pow]
      linarith
    have : exponent n p ≤ -1 := Int.ceil_le.mpr hlogb
    omega

theorem log_two_lb : (5 : ℝ) / 8 < Real.log 2 := by
  have h := Real.log_two_gt_d9
  norm_num at h ⊢
  linarith

theorem log_two_ub : Real.log 2 < (5 : ℝ) / 4 := by
  have h := Real.log_two_lt_d9
  norm_num at h ⊢
  linarith

theorem log_two_pos : (0 : ℝ) < Real.log 2 := Real.log_pos one_lt_two

/-! ### A concrete constructed filter: `BloomFilter(5, 1/2)` -/

theorem R_th_5 : R_theoretical 5 (1 / 2) = 5 / Real.log 2 := by
  unfold R_theoretical
  rw [show ((1 : ℝ) / 2) = 2⁻¹ by norm_num, Real.log_inv]
  have h := log_two_pos.ne'
  field_simp
  ring

theorem exponent_5 : exponent 5 (1 / 2) = 3 := by
  have hx : (0 : ℝ) < 5 / Real.log 2 := by
    have := log_two_pos
    positivity
  have h1 : exponent 5 (1 / 2) ≤ 3 := by
    rw [exponent, R_th_5, Int.ceil_le,
      Real.logb_le_iff_le_rpow one_lt_two hx, Real.rpow_intCast,
      div_le_iff₀ log_two_pos]
    nlinarith [log_two_lb]
  have h2 : (2 : ℤ) < exponent 5 (1 / 2) := by
    rw [exponent, R_th_5, Int.lt_ceil,
      Real.lt_logb_iff_rpow_lt one_lt_two hx, Real.rpow_intCast,
      lt_div_iff₀ log_two_pos]
    nlinarith [log_two_ub]
  omega

theorem sizeR_5 : sizeR 5 (1 / 2) = 8 := by
  rw [sizeR, exponent_5]
  rfl

theorem hashCount_5 : hashCount 5 (1 / 2) = 2 := by
  have h1 : hashCount 5 (1 / 2) ≤ 2 := by
    rw [hashCount, sizeR_5, Int.ceil_le]
    push_cast
    nlinarith [log_two_ub]
  have h2 : (1 : ℤ) < hashCount 5 (1 / 2) := by
    rw [hashCount, sizeR_5, Int.lt_ceil]
    push_cast
    nlinarith [log_two_lb]
  omega

/-- The filter state `BloomFilter(5, 0.5)` produces: `R = 8`, `k = 2`. -/
noncomputable def bf5half : BloomFilter :=
  { R := 8, N := 5, fp_rate := 1 / 2, k := 2,
    hash_functions := List.replicate 2 (hash_factory 8),
    table := List.replicate 8 false }

theorem mk5_eq : mkBloomFilter 5 (1 / 2) = some bf5half := by
  have hp : ¬ ((1 : ℝ) / 2 ≤ 0) := by norm_num
  have hx : ¬ (R_theoretical 5 (1 / 2) ≤ 0) := by
    rw [R_th_5]
    push_neg
    have := log_two_pos
    positivity
  have he : ¬ (exponent 5 (1 / 2) < 0) := by rw [exponent_5]; omega
  rw [mkBloomFilter, if_neg hp, if_neg hx, if_neg he]
  rw [sizeR_5, hashCount_5]
  rfl

/-! ### Remaining shared helpers -/

theorem insert_R (f : BloomFilter) (key : Key) : (insert f key).R = f.R := rfl

theorem insert_k (f : BloomFilter) (key : Key) : (insert f key).k = f.k := rfl

theorem insertAll_R (ks : List Key) (f : BloomFilter) : (insertAll f ks).R = f.R := by
  induction ks generalizing f with
  | nil => rfl
  | cons a ks ih => rw [insertAll_cons, ih, insert_R]

theorem insertAll_k (ks : List Key) (f : BloomFilter) : (insertAll f ks).k = f.k := by
  induction ks generalizing f with
  | nil => rfl
  | cons a ks ih => rw [insertAll_cons, ih, insert_k]

theorem probes_eq (f : BloomFilter) (h : WF f) (key : Key) :
    probes f key = (List.range f.k.toNat).map fun i => hash_factory f.R key i := by
  unfold probes
  apply List.map_congr_left
  intro i _
  rw [hash_functions_getD f h]

theorem mk_k_pos (n : ℤ) (p : ℝ) (f : BloomFilter)
    (hmk : mkBloomFilter n p = some f) (hn : 1 ≤ n) : 1 ≤ f.k := by
  obtain ⟨hp, hx, he, hR, hN, hfp, hk, hh, ht⟩ := mk_inv n p f hmk
  rw [hk, hashCount]
  have h1 : (0 : ℝ) < (sizeR n p : ℝ) := by
    rw [sizeR]
    positivity
  have h2 : (0 : ℝ) < (n : ℝ) := by
    have : (0 : ℤ) < n := by omega
    exact_mod_cast this
  have hpos : 0 < ((sizeR n p : ℝ) / (n : ℝ)) * Real.log 2 := by
    have := log_two_pos
    positivity
  have := Int.ceil_pos.mpr hpos
  omega

/-! ### The claims -/

/-- C1: no false negatives.  For every well-formed filter, any key `K`, and
any sequences of other insertions before and after, `test(K)` returns true
once `insert(K)` has been performed. -/
theorem no_false_negatives (f : BloomFilter) (hwf : WF f) (K : Key)
    (pre post : List Key) :
    test (insertAll (insert (insertAll f pre) K) post) K = true := by
  have hwfg : WF (insertAll f pre) := WF_insertAll pre f hwf
  have hwfh : WF (insertAll (insert (insertAll f pre) K) post) :=
    WF_insertAll post _ (WF_insert _ K hwfg)
  rw [test, List.all_eq_true]
  intro i hi
  rw [List.mem_range] at hi
  rw [hash_functions_getD _ hwfh]
  have hR : (insertAll (insert (insertAll f pre) K) post).R = (insertAll f pre).R := by
    rw [insertAll_R, insert_R]
  have hk : (insertAll (insert (insertAll f pre) K) post).k = (insertAll f pre).k := by
    rw [insertAll_k, insert_k]
  rw [hR]
  apply getD_of_getElem?
  have hmem : hash_factory (insertAll f pre).R K i ∈ probes (insertAll f pre) K := by
    rw [probes_eq _ hwfg]
    refine List.mem_map.mpr ⟨i, List.mem_range.mpr ?_, rfl⟩
    rw [hk] at hi
    exact hi
  have hlt : hash_factory (insertAll f pre).R K i < (insertAll f pre).table.length := by
    rw [hwfg.1]
    exact hash_factory_lt _ hwfg.2.1 K i
  have h1 : (insert (insertAll f pre) K).table[hash_factory (insertAll f pre).R K i]? =
      some true := by
    rw [insert_table]
    exact setBits_mem _ _ _ hmem hlt
  exact table_mono_insertAll post _ _ h1

/-- C1 witness: the filter `BloomFilter(5, 0.5)` with `3` inserted and then
`19` inserted reports `test(3) = true`. -/
theorem no_false_negatives_witness :
    WF bf5half ∧
      test (insertAll (insert (insertAll bf5half []) (Key.intKey 3)) [Key.intKey 19])
        (Key.intKey 3) = true := by
  have hwf : WF bf5half := ⟨by simp [bf5half], by norm_num [bf5half], rfl⟩
  exact ⟨hwf, no_false_negatives bf5half hwf (Key.intKey 3) [] [Key.intKey 19]⟩

/-- C2 counterexample: `(n, fp_rate) = (1, 0.9)` is a valid parameter pair,
yet construction fails (Python raises `ValueError: negative shift count` at
`1 << math.ceil(math.log2(0.219...))`), so the claim that construction
succeeds for every valid pair is false. -/
theorem construction_valid_pair_fails :
    (1 : ℤ) ≤ 1 ∧ (0 : ℝ) < 9 / 10 ∧ (9 : ℝ) / 10 < 1 ∧
      mkBloomFilter 1 (9 / 10) = none := by
  refine ⟨le_refl _, by norm_num, by norm_num, ?_⟩
  rw [mk_eq_none_iff]
  right
  unfold R_theoretical
  have h1 : Real.log ((9 : ℝ) / 10) = -Real.log ((10 : ℝ) / 9) := by
    rw [show ((9 : ℝ) / 10) = ((10 : ℝ) / 9)⁻¹ by norm_num, Real.log_inv]
  rw [h1]
  have h2 : Real.log ((10 : ℝ) / 9) ≤ 1 / 9 := by
    have h := Real.log_le_sub_one_of_pos (show (0 : ℝ) < 10 / 9 by norm_num)
    linarith
  have h4 : (2 : ℝ) / 9 ≤ (Real.log 2) ^ 2 := by nlinarith [log_two_lb]
  rw [div_le_iff₀ (by positivity : (0 : ℝ) < (Real.log 2) ^ 2)]
  push_cast
  nlinarith [h2, h4]

/-- C2 (amended): construction fails, producing no filter, exactly when
`fp_rate ≤ 0` or the theoretical size `-n*ln(fp_rate)/(ln 2)^2` is at most
`1/2`.  In particular it fails for every `n ≤ 0` with `fp_rate` in `(0, 1]`,
but it also fails for valid pairs whose theoretical size is at most `1/2`
(negative shift count), and it succeeds for invalid pairs with `n < 0` and
`fp_rate > 1`; the error raised is a generic `ValueError` from `math.log`,
`math.log2` or `<<`, not a dedicated invalid-parameter error. -/
theorem construction_failure_iff (n : ℤ) (p : ℝ) :
    mkBloomFilter n p = none ↔ p ≤ 0 ∨ R_theoretical n p ≤ 1 / 2 :=
  mk_eq_none_iff n p

/-- C3 counterexample: the integer key `2^31` is outside the signed 32-bit
range, so sklearn's murmurhash3_32 raises OverflowError on it: the hash
computation is not total on integer keys, and `insert(2**31)` /
`test(2**31)` fail inside their first hash call.  This refutes the claim
that every hash computation is total for every integer key. -/
theorem hash_overflow_counterexample :
    murmurhash3_32_checked (Key.intKey (2 ^ 31)) 0 = none ∧
      hash_factory_checked 8 (Key.intKey (2 ^ 31)) 0 = none := by
  constructor <;> rfl

/-- C3 (amended): for every key sklearn's hash accepts — any string key,
and integer keys in the signed 32-bit range — each hash computation of
`insert` and `test` succeeds and yields an index in `[0, m)` (so with
`m = R` every bit access is in bounds); integer keys outside that range
make the hash raise, so `insert` and `test` fail on them. -/
theorem hash_index_in_range_amended (m : ℕ) (hm : 1 ≤ m) (key : Key)
    (hkey : hashable key = true) (seed : ℕ) :
    ∃ idx : ℕ, hash_factory_checked m key seed = some idx ∧ idx < m := by
  refine ⟨hash_factory m key seed, ?_, hash_factory_lt m hm key seed⟩
  rw [hash_factory_checked, murmurhash3_32_checked, if_pos hkey]
  rfl

/-- C3 witness: the in-range integer key `3` hashes successfully to an
index in `[0, 8)`. -/
theorem hash_index_in_range_amended_witness :
    1 ≤ 8 ∧ hashable (Key.intKey 3) = true ∧
      ∃ idx : ℕ, hash_factory_checked 8 (Key.intKey 3) 0 = some idx ∧ idx < 8 :=
  ⟨by norm_num, by decide,
    hash_index_in_range_amended 8 (by norm_num) (Key.intKey 3) (by decide) 0⟩

/-- C4: sizing invariant.  For every valid `(n, fp_rate)` whose construction
produces a filter, the bit-array size `R` is a power of two, is at least the
theoretical optimum `-n*ln(fp_rate)/(ln 2)^2`, and is the smallest power of
two with that property. -/
theorem sizing_invariant (n : ℤ) (p : ℝ) (f : BloomFilter)
    (hmk : mkBloomFilter n p = some f) (hn : 1 ≤ n) (hp0 : 0 < p) (hp1 : p < 1) :
    (∃ j : ℕ, f.R = 2 ^ j) ∧ R_theoretical n p ≤ (f.R : ℝ) ∧
      ∀ j : ℕ, R_theoretical n p ≤ (2 : ℝ) ^ j → f.R ≤ 2 ^ j := by
  obtain ⟨hp, hx, he, hR, hN, hfp, hk, hh, ht⟩ := mk_inv n p f hmk
  have hcast : (((exponent n p).toNat : ℝ)) = ((exponent n p : ℤ) : ℝ) := by
    exact_mod_cast Int.toNat_of_nonneg he
  refine ⟨⟨(exponent n p).toNat, by rw [hR, sizeR]⟩, ?_, ?_⟩
  · rw [hR, sizeR]
    push_cast
    calc R_theoretical n p
        = (2 : ℝ) ^ Real.logb 2 (R_theoretical n p) :=
          (Real.rpow_logb (by norm_num) (by norm_num) hx).symm
      _ ≤ (2 : ℝ) ^ (((exponent n p).toNat : ℝ)) := by
          apply Real.rpow_le_rpow_of_exponent_le one_le_two
          rw [hcast]
          exact Int.le_ceil _
      _ = (2 : ℝ) ^ ((exponent n p).toNat) := Real.rpow_natCast 2 _
  · intro j hj
    rw [hR, sizeR]
    apply Nat.pow_le_pow_right (by norm_num)
    have hlogb : Real.logb 2 (R_theoretical n p) ≤ ((j : ℤ) : ℝ) := by
      rw [Real.logb_le_iff_le_rpow one_lt_two hx]
      push_cast
      rw [Real.rpow_natCast]
      exact hj
    have hej : exponent n p ≤ (j : ℤ) := Int.ceil_le.mpr hlogb
    omega

/-- C4 witness: `BloomFilter(5, 0.5)` gets `R = 8 = 2^3`, the smallest power
of two at least `5/ln 2 = 7.21...`. -/
theorem sizing_invariant_witness :
    mkBloomFilter 5 (1 / 2) = some bf5half ∧ (1 : ℤ) ≤ 5 ∧ (0 : ℝ) < 1 / 2 ∧
      (1 : ℝ) / 2 < 1 ∧
      ((∃ j : ℕ, bf5half.R = 2 ^ j) ∧ R_theoretical 5 (1 / 2) ≤ (bf5half.R : ℝ) ∧
        ∀ j : ℕ, R_theoretical 5 (1 / 2) ≤ (2 : ℝ) ^ j → bf5half.R ≤ 2 ^ j) :=
  ⟨mk5_eq, by norm_num, by norm_num, by norm_num,
    sizing_invariant 5 (1 / 2) bf5half mk5_eq (by norm_num) (by norm_num) (by norm_num)⟩

/-- C5: k invariant.  For every valid `(n, fp_rate)` whose construction
produces a filter, `k = ceil((R/n) * ln 2)`, `k ≥ 1`, and the filter holds
exactly `k` hash functions. -/
theorem k_invariant (n : ℤ) (p : ℝ) (f : BloomFilter)
    (hmk : mkBloomFilter n p = some f) (hn : 1 ≤ n) (hp0 : 0 < p) (hp1 : p < 1) :
    f.k = ⌈((f.R : ℝ) / ((n : ℤ) : ℝ)) * Real.log 2⌉ ∧ 1 ≤ f.k ∧
      f.hash_functions.length = f.k.toNat := by
  obtain ⟨hp, hx, he, hR, hN, hfp, hk, hh, ht⟩ := mk_inv n p f hmk
  refine ⟨?_, mk_k_pos n p f hmk hn, ?_⟩
  · rw [hk, hashCount, hR]
  · rw [hh, List.length_replicate]

/-- C5 witness: `BloomFilter(5, 0.5)` gets `k = ceil((8/5) * ln 2) = 2` and
two hash functions. -/
theorem k_invariant_witness :
    mkBloomFilter 5 (1 / 2) = some bf5half ∧ (1 : ℤ) ≤ 5 ∧ (0 : ℝ) < 1 / 2 ∧
      (1 : ℝ) / 2 < 1 ∧
      (bf5half.k = ⌈((bf5half.R : ℝ) / (((5 : ℤ) : ℤ) : ℝ)) * Real.log 2⌉ ∧
        1 ≤ bf5half.k ∧ bf5half.hash_functions.length = bf5half.k.toNat) :=
  ⟨mk5_eq, by norm_num, by norm_num, by norm_num,
    k_invariant 5 (1 / 2) bf5half mk5_eq (by norm_num) (by norm_num) (by norm_num)⟩

/-- C6: empty-filter property.  A freshly constructed filter (valid
parameters, before any insert) answers `test(K) = false` for every key. -/
theorem empty_filter_claim (n : ℤ) (p : ℝ) (f : BloomFilter)
    (hmk : mkBloomFilter n p = some f) (hn : 1 ≤ n) (hp0 : 0 < p) (hp1 : p < 1)
    (K : Key) : test f K = false := by
  obtain ⟨hp, hx, he, hR, hN, hfp, hk, hh, ht⟩ := mk_inv n p f hmk
  have hk1 : 1 ≤ f.k := mk_k_pos n p f hmk hn
  cases htest : test f K with
  | false => rfl
  | true =>
      exfalso
      rw [test, List.all_eq_true] at htest
      have h0 : (0 : ℕ) ∈ List.range f.k.toNat := by
        rw [List.mem_range]
        omega
      have hbit := htest 0 h0
      rw [ht, List.getD_eq_getElem?_getD, List.getElem?_replicate] at hbit
      split at hbit <;> simp at hbit

/-- C6 witness: the fresh `BloomFilter(5, 0.5)` answers `test(3) = false`. -/
theorem empty_filter_witness :
    mkBloomFilter 5 (1 / 2) = some bf5half ∧ (1 : ℤ) ≤ 5 ∧ (0 : ℝ) < 1 / 2 ∧
      (1 : ℝ) / 2 < 1 ∧ test bf5half (Key.intKey 3) = false :=
  ⟨mk5_eq, by norm_num, by norm_num, by norm_num,
    empty_filter_claim 5 (1 / 2) bf5half mk5_eq (by norm_num) (by norm_num)
      (by norm_num) (Key.intKey 3)⟩

/-- C7: monotonic saturation.  `insert` only turns bits on: a set bit stays
set, and the count of set bits never decreases, over one insert or any
sequence of inserts. -/
theorem monotonic_saturation (f : BloomFilter) (key : Key) (i : ℕ) (ks : List Key)
    (h : f.table.getD i false = true) :
    (insert f key).table.getD i false = true ∧
      f.table.count true ≤ (insert f key).table.count true ∧
      f.table.count true ≤ (insertAll f ks).table.count true :=
  ⟨getD_of_getElem? _ _ (table_mono_insert f key i (getD_eq_some_true _ _ h)),
    count_le_insert f key, count_le_insertAll ks f⟩

/-- A filter state with one bit already set, for the C7 witness. -/
noncomputable def bfOneBit : BloomFilter :=
  { R := 8, N := 5, fp_rate := 1 / 2, k := 2,
    hash_functions := List.replicate 2 (hash_factory 8),
    table := true :: List.replicate 7 false }

/-- C7 witness: with bit 0 set, inserting `3` keeps bit 0 set and the
set-bit count does not decrease. -/
theorem monotonic_saturation_witness :
    bfOneBit.table.getD 0 false = true ∧
      ((insert bfOneBit (Key.intKey 3)).table.getD 0 false = true ∧
        bfOneBit.table.count true ≤ (insert bfOneBit (Key.intKey 3)).table.count true ∧
        bfOneBit.table.count true ≤ (insertAll bfOneBit [Key.intKey 19]).table.count true) :=
  ⟨rfl, monotonic_saturation bfOneBit (Key.intKey 3) 0 [Key.intKey 19] rfl⟩

/-- C8: idempotence of insert.  Inserting the same key twice in succession
leaves the filter in exactly the state one insert produces. -/
theorem insert_idempotent (f : BloomFilter) (key : Key) :
    insert (insert f key) key = insert f key := by
  refine filter_ext _ _ rfl rfl rfl rfl rfl ?_
  rw [insert_table (insert f key), probes_insert, insert_table]
  apply List.ext_getElem?
  intro n
  rw [getElem?_setBits, setBits_length]
  by_cases hc : n ∈ probes f key ∧ n < f.table.length
  · rw [if_pos hc, getElem?_setBits, if_pos hc]
  · rw [if_neg hc]

/-- C9: determinism.  Two filters constructed with identical `(n, fp_rate)`
and fed the identical insertion sequence have bit-for-bit identical tables,
and repeated `test` calls with no intervening insert agree. -/
theorem determinism (n : ℤ) (p : ℝ) (f₁ f₂ : BloomFilter)
    (h₁ : mkBloomFilter n p = some f₁) (h₂ : mkBloomFilter n p = some f₂)
    (ks : List Key) (K : Key) :
    (insertAll f₁ ks).table = (insertAll f₂ ks).table ∧
      test (insertAll f₁ ks) K = test (insertAll f₂ ks) K := by
  obtain rfl : f₁ = f₂ := Option.some.inj (h₁.symm.trans h₂)
  exact ⟨rfl, rfl⟩

/-- C9 witness: two copies of `BloomFilter(5, 0.5)` fed `[3]` agree on the
table and on `test(19)`. -/
theorem determinism_witness :
    mkBloomFilter 5 (1 / 2) = some bf5half ∧
      ((insertAll bf5half [Key.intKey 3]).table = (insertAll bf5half [Key.intKey 3]).table ∧
        test (insertAll bf5half [Key.intKey 3]) (Key.intKey 19) =
          test (insertAll bf5half [Key.intKey 3]) (Key.intKey 19)) :=
  ⟨mk5_eq,
    determinism 5 (1 / 2) bf5half bf5half mk5_eq mk5_eq [Key.intKey 3] (Key.intKey 19)⟩

/-- C10: frame property.  `insert` leaves `R`, `N`, `fp_rate`, `k` and the
hash-function family unchanged and only mutates the table, preserving its
length; `test` is modelled as a pure function (it returns only a boolean and
takes no mutable state), matching the source, whose `test` only reads. -/
theorem frame_property (f : BloomFilter) (key : Key) :
    (insert f key).R = f.R ∧ (insert f key).N = f.N ∧
      (insert f key).fp_rate = f.fp_rate ∧ (insert f key).k = f.k ∧
      (insert f key).hash_functions = f.hash_functions ∧
      (insert f key).table.length = f.table.length :=
  ⟨rfl, rfl, rfl, rfl, rfl, insert_table_length f key⟩

end BF


